import Mathlib

/-!
Shallow embedding of the SimpleRAG hybrid retrieval engine.

The embedded code is `app/services/hybrid_retrieval.py` (tokenization, query
expansion, BM25 result post-processing, weighted score fusion),
`app/services/vector_store.py` (idempotent dense indexing) and
`app/services/llm_service.py` (confidence estimation).

Modeling conventions:
  * Python floats are modeled by exact rationals.
  * Python dicts keyed by message id are modeled by association lists with
    Python assignment semantics (overwrite in place, insertion order kept).
  * The fitted scorer of the external rank_bm25 library lives outside the
    repository; it is modeled by the function it realizes, from a token list
    to one score per corpus document.
  * Mutation of caller-supplied dicts is made explicit by also returning the
    final state of the mutated list.
  * Python `sorted` is stable; it is modeled by insertion sort, which is a
    stable sort, so both compute the identical output list.
-/

namespace SimpleRAG

/-- Member message, from `app/models/schemas.py` (`Message`). The timestamp is
kept in its ISO-string form: retrieval only copies it around. -/
structure Message where
  id : String
  user_id : String
  user_name : String
  timestamp : String
  message : String
deriving DecidableEq, Repr

/-! ### Tokenization (`HybridRetriever._tokenize`, hybrid_retrieval.py 211-220) -/

/-- ASCII and Latin-1 model of the regex class `\w` used in
`re.sub(r'[^\w\s]', ' ', ...)`. Python regex `\w` is Unicode-aware: besides
`[A-Za-z0-9_]` it matches every alphanumeric code point, which on the
Latin-1 block are the ordinal indicators and superscripts 0xAA, 0xB2, 0xB3,
0xB9, 0xBA, the micro sign 0xB5, and the letters 0xC0-0xFF minus the
multiplication and division signs 0xD7 and 0xF7. The model is faithful for
every code point up to 0xFF; word characters beyond the Latin-1 block are
outside the model. -/
def pyIsWordChar (c : Char) : Bool :=
  c.isAlphanum || c = '_' ||
  decide (c.toNat = 0xAA ∨ c.toNat = 0xB2 ∨ c.toNat = 0xB3 ∨ c.toNat = 0xB5 ∨
    c.toNat = 0xB9 ∨ c.toNat = 0xBA ∨
    (0xC0 ≤ c.toNat ∧ c.toNat ≤ 0xFF ∧ c.toNat ≠ 0xD7 ∧ c.toNat ≠ 0xF7))

/-- ASCII and Latin-1 model of Python whitespace (`str.split()` with no
separator and regex `\s`): space, TAB, LF, CR, VT, FF, the separator
controls 0x1C-0x1F, NEL 0x85 and NBSP 0xA0. -/
def pyIsSpace (c : Char) : Bool :=
  c = ' ' || c = '\t' || c = '\n' || c = '\r' || c = '\x0b' || c = '\x0c' ||
  decide (0x1C ≤ c.toNat ∧ c.toNat ≤ 0x1F) ||
  decide (c.toNat = 0x85) || decide (c.toNat = 0xA0)

/-- ASCII and Latin-1 model of Python `str.lower()`: `A-Z` and the Latin-1
uppercase letters 0xC0-0xDE minus the multiplication sign 0xD7 move 32 code
points up (the Unicode simple lowercase on that range); every other code
point up to 0xFF is unchanged. Letters beyond the Latin-1 block are outside
the model. -/
def pyLower (c : Char) : Char :=
  if (65 ≤ c.toNat ∧ c.toNat ≤ 90) ∨
      (0xC0 ≤ c.toNat ∧ c.toNat ≤ 0xDE ∧ c.toNat ≠ 0xD7) then
    Char.ofNat (c.toNat + 32)
  else c

/-- Accumulator-based splitter on whitespace runs, Python `str.split()`:
maximal runs of non-whitespace characters, no empty tokens. -/
def wsSplitAux : List Char → List Char → List (List Char)
  | [], acc => if acc.isEmpty then [] else [acc.reverse]
  | c :: cs, acc =>
    if pyIsSpace c then
      if acc.isEmpty then wsSplitAux cs [] else acc.reverse :: wsSplitAux cs []
    else wsSplitAux cs (c :: acc)

/-- Python `str.split()` with no separator argument. -/
def wsSplit (l : List Char) : List (List Char) := wsSplitAux l []

/-- `HybridRetriever._tokenize` (hybrid_retrieval.py 211-220): lowercase
(Unicode-aware `str.lower()`, modeled by `pyLower`), map every character
that is neither a `\w` word character nor whitespace to a space, then split
on whitespace. -/
def tokenize (s : String) : List String :=
  let lowered := s.data.map pyLower
  let cleaned := lowered.map (fun c => if pyIsWordChar c || pyIsSpace c then c else ' ')
  (wsSplit cleaned).map (fun t => String.mk t)

/-! ### Query expansion (hybrid_retrieval.py 11-20 and 74-81) -/

/-- The fixed synonym table `QUERY_EXPANSIONS` (hybrid_retrieval.py 12-20). -/
def QUERY_EXPANSIONS : List (String × List String) :=
  [("trip", ["trip", "travel", "journey", "visit", "stay"]),
   ("planning", ["planning", "scheduled", "booking", "arranging", "organizing"]),
   ("when", ["when", "date", "time", "schedule"]),
   ("favorite", ["favorite", "preferred", "love", "like", "enjoy"]),
   ("restaurant", ["restaurant", "dining", "eatery", "cuisine"]),
   ("car", ["car", "vehicle", "automobile", "transportation"]),
   ("have", ["have", "own", "possess"])]

/-- Query-expansion loop of `search_bm25` (hybrid_retrieval.py 74-81): each
token is kept and, when it is a key of the table, followed by all of its
synonyms; `list(set(expanded_tokens))` is modeled by `List.dedup` (the order
of a Python set is arbitrary; only membership and cardinality are relied on
downstream, since BM25 scoring is bag-of-words). -/
def expandQuery (toks : List String) : List String :=
  (toks.flatMap (fun t => t :: ((QUERY_EXPANSIONS.lookup t).getD []))).dedup

/-! ### BM25 search (`HybridRetriever.search_bm25`, hybrid_retrieval.py 54-105) -/

/-- One entry of the result list built by `search_bm25`
(hybrid_retrieval.py 95-102). -/
structure BmResult where
  message : Message
  bm25_score : ℚ
  id : String
  user_name : String
  document : String
  timestamp : String
deriving DecidableEq, Repr

/-- State of a `HybridRetriever` instance: `_bm25` is `None` until
`index_messages` runs and afterwards holds the fitted `BM25Okapi` object.
The rank_bm25 library is external to the repository, so the fitted object is
modeled by the observable map it realizes, from a query token list to one
rational score per corpus document. In Python `_messages` and
`_tokenized_corpus` are `None` before indexing; the empty list stands in,
and no code path reads them while `_bm25` is `None`. -/
structure HybridRetriever where
  bm25 : Option (List String → List ℚ)
  messages : List Message
  tokenizedCorpus : List (List String)

/-- `HybridRetriever.__init__` (hybrid_retrieval.py 26-29). -/
def HybridRetriever.init : HybridRetriever := ⟨none, [], []⟩

/-- `HybridRetriever.index_messages` (hybrid_retrieval.py 31-52): store the
messages, tokenize `f"{user_name} {message}"` per message, and fit the scorer
on the tokenized corpus. The `BM25Okapi(corpus)` constructor is external and
is supplied as the `fit` argument. -/
def indexMessagesBm25 (st : HybridRetriever) (messages : List Message)
    (fit : List (List String) → (List String → List ℚ)) : HybridRetriever :=
  let corpus := messages.map (fun m => tokenize (m.user_name ++ " " ++ m.message))
  { st with messages := messages, tokenizedCorpus := corpus, bm25 := some (fit corpus) }

/-- Ascending comparison of corpus indices by score, ties by index. -/
def idxLe (scores : List ℚ) (i j : Nat) : Prop :=
  scores.getD i 0 < scores.getD j 0 ∨ (scores.getD i 0 = scores.getD j 0 ∧ i ≤ j)

instance (scores : List ℚ) : DecidableRel (idxLe scores) := fun i j =>
  inferInstanceAs (Decidable (scores.getD i 0 < scores.getD j 0 ∨
    (scores.getD i 0 = scores.getD j 0 ∧ i ≤ j)))

/-- Deterministic model of `np.argsort(scores)` (ascending): the indices
`0 .. n-1` sorted by score with ties broken by index, i.e. a stable ascending
argsort. numpy does not document a tie rule for its default sort, but it is
realized by a stable insertion sort on the small arrays evaluated concretely
below, and the stable rule is the deterministic reading used throughout. -/
def argsortAsc (scores : List ℚ) : List Nat :=
  List.insertionSort (idxLe scores) (List.range scores.length)

/-- `np.argsort(scores)[::-1][:top_k]` (hybrid_retrieval.py 88). -/
def topKIndices (scores : List ℚ) (top_k : Nat) : List Nat :=
  ((argsortAsc scores).reverse).take top_k

/-- Result construction for one index (hybrid_retrieval.py 92-102): keep the
index only when its score is strictly positive, and package the message.
List indexing is total via option lookup; the rank_bm25 invariant keeps the
score list and the message list the same length, so the lookup never fails on
the indices that argsort yields. -/
def bm25ResultAt (messages : List Message) (scores : List ℚ) (idx : Nat) : Option BmResult :=
  if 0 < scores.getD idx 0 then
    match messages[idx]? with
    | some msg => some ⟨msg, scores.getD idx 0, msg.id, msg.user_name, msg.message, msg.timestamp⟩
    | none => none
  else none

/-- `HybridRetriever.search_bm25` (hybrid_retrieval.py 54-105). Returns the
empty list when the index was never built (lines 66-68); otherwise tokenizes
the query, optionally expands it, scores every document, and keeps the
positive-score documents among the `top_k` highest-ranked ones. -/
def searchBm25 (st : HybridRetriever) (query : String) (top_k : Nat)
    (use_expansion : Bool) : List BmResult :=
  match st.bm25 with
  | none => []
  | some getScores =>
    let tokenized := tokenize query
    let tokenizedQuery := if use_expansion then expandQuery tokenized else tokenized
    let scores := getScores tokenizedQuery
    (topKIndices scores top_k).filterMap (bm25ResultAt st.messages scores)

/-- State-passing form of `search_bm25`: the method reads retriever state but
never assigns to it, so the output state is the input state. -/
def searchBm25S (st : HybridRetriever) (query : String) (top_k : Nat)
    (use_expansion : Bool) : List BmResult × HybridRetriever :=
  (searchBm25 st query top_k use_expansion, st)

/-! ### Python dict model -/

/-- Python dict assignment `d[k] = v`: overwrite in place when the key exists
(keeping its position), otherwise append. -/
def dinsert (d : List (String × ℚ)) (k : String) (v : ℚ) : List (String × ℚ) :=
  if d.any (fun p => p.1 = k) then d.map (fun p => if p.1 = k then (k, v) else p)
  else d ++ [(k, v)]

/-- Build a Python dict from a sequence of key-value assignments performed in
order: later assignments overwrite, insertion order is preserved. -/
def dictOf (l : List (String × ℚ)) : List (String × ℚ) :=
  l.foldl (fun d p => dinsert d p.1 p.2) []

/-- Keys of a dict, in insertion order (Python `d.keys()`). -/
def dkeys (d : List (String × ℚ)) : List String := d.map Prod.fst

/-- Values of a dict, in insertion order (Python `d.values()`). -/
def dvalues (d : List (String × ℚ)) : List ℚ := d.map Prod.snd

/-- Python `d.get(k)` / `d[k]` lookup. -/
def dget (d : List (String × ℚ)) (k : String) : Option ℚ := d.lookup k

/-- Python `max` over a nonempty list of numbers. -/
def maxVal : List ℚ → ℚ
  | [] => 0
  | x :: xs => xs.foldl max x

/-! ### Hybrid fusion (`HybridRetriever.hybrid_search`, hybrid_retrieval.py 107-209) -/

/-- Semantic-search result dict, as built in `app/api/routes.py` 63-72 with
keys `id`, `document`, `user_name`, `timestamp`, `distance`, plus the three
score keys that `hybrid_search` writes into the dict in place; a key that is
absent is `none`. -/
structure SemResult where
  id : String
  document : String
  user_name : String
  timestamp : String
  distance : Option ℚ
  hybrid_score : Option ℚ := none
  bm25_score : Option ℚ := none
  semantic_score : Option ℚ := none
deriving DecidableEq, Repr

/-- Raw BM25 score dict (hybrid_retrieval.py 130). -/
def hybridBm25Raw (bm25_results : List BmResult) : List (String × ℚ) :=
  dictOf (bm25_results.map (fun r => (r.id, r.bm25_score)))

/-- Max-normalized BM25 score dict (hybrid_retrieval.py 142-145): when the
dict is nonempty, every value is divided by the maximal value. -/
def hybridBm25Norm (bm25_results : List BmResult) : List (String × ℚ) :=
  let raw := hybridBm25Raw bm25_results
  if raw.isEmpty then raw
  else
    let maxB := maxVal (dvalues raw)
    raw.map (fun p => (p.1, p.2 / maxB))

/-- Distance-to-similarity dict (hybrid_retrieval.py 134-140):
`1 / (1 + distance)` with a default distance of `2.0` when the key is absent. -/
def hybridSemRaw (semantic_results : List SemResult) : List (String × ℚ) :=
  dictOf (semantic_results.map (fun r => (r.id, 1 / (1 + r.distance.getD 2))))

/-- Max-normalized semantic similarity dict (hybrid_retrieval.py 148-150). -/
def hybridSemNorm (semantic_results : List SemResult) : List (String × ℚ) :=
  let raw := hybridSemRaw semantic_results
  if raw.isEmpty then raw
  else
    let maxS := maxVal (dvalues raw)
    raw.map (fun p => (p.1, p.2 / maxS))

/-- `all_ids = set(bm25_scores.keys()) | set(semantic_scores.keys())`
(hybrid_retrieval.py 153). Python set order is arbitrary; the model keeps
first occurrences left to right. -/
def hybridAllIds (bmN semN : List (String × ℚ)) : List String :=
  (dkeys bmN ++ dkeys semN).dedup

/-- `combined_scores` (hybrid_retrieval.py 155-165): weighted fusion over the
union of ids, each missing contribution defaulting to `0.0`. -/
def hybridCombined (bmN semN : List (String × ℚ)) (bm25_weight : ℚ) :
    List (String × ℚ) :=
  (hybridAllIds bmN semN).map (fun msg_id =>
    (msg_id, bm25_weight * (dget bmN msg_id).getD 0 +
             (1 - bm25_weight) * (dget semN msg_id).getD 0))

/-- Descending comparison of ids by combined score. Keys of `sorted_ids` are
always present in the dict, so the lookup default is never consulted. -/
def combinedLe (combined : List (String × ℚ)) (a b : String) : Prop :=
  (dget combined b).getD 0 ≤ (dget combined a).getD 0

instance (combined : List (String × ℚ)) : DecidableRel (combinedLe combined) :=
  fun a b =>
    inferInstanceAs (Decidable ((dget combined b).getD 0 ≤ (dget combined a).getD 0))

/-- `sorted(combined_scores.keys(), key=..., reverse=True)[:top_k]`
(hybrid_retrieval.py 168-172). Python sorted is stable and with
`reverse=True` equal keys keep their original order, which insertion sort
reproduces exactly. -/
def hybridSortedIds (combined : List (String × ℚ)) (top_k : Nat) : List String :=
  (List.insertionSort (combinedLe combined) (dkeys combined)).take top_k

/-- Write of the three fused-score keys into a result dict
(hybrid_retrieval.py 197-199). The combined dict always holds every surviving
id, so `combined_scores[msg_id]` never raises and the `getD 0` default is
never consulted; the other two use Python `.get(..., 0.0)`. -/
def writeScores (combined bmN semN : List (String × ℚ)) (msg_id : String)
    (r : SemResult) : SemResult :=
  { r with hybrid_score := some ((dget combined msg_id).getD 0),
           bm25_score := some ((dget bmN msg_id).getD 0),
           semantic_score := some ((dget semN msg_id).getD 0) }

/-- Fallback dict built from a lexical result when an id has no dense
counterpart (hybrid_retrieval.py 184-194), with the placeholder distance 0.5. -/
def fallbackFromBm (r : BmResult) : SemResult :=
  { id := r.id, document := r.document, user_name := r.user_name,
    timestamp := r.timestamp, distance := some (1/2) }

/-- In-place mutation of the first dict in the list whose id matches: the
Python loop mutates the found dict object, which lives inside the
caller-supplied `semantic_results` list. -/
def updateFirst (l : List SemResult) (msg_id : String)
    (f : SemResult → SemResult) : List SemResult :=
  match l with
  | [] => []
  | r :: rs => if r.id = msg_id then f r :: rs else r :: updateFirst rs msg_id f

/-- Result-building loop of `hybrid_search` (hybrid_retrieval.py 175-200) in
explicit state-passing form: returns the `results` list together with the
final state of the caller-supplied `semantic_results` list. For each surviving
id the first matching dense dict is reused (and mutated); otherwise a fallback
dict is created from the first matching lexical result; an id matching
neither is skipped (this never happens: every surviving id is in the union). -/
def hybridBuild (combined bmN semN : List (String × ℚ)) (bm25_results : List BmResult) :
    List String → List SemResult → List SemResult × List SemResult
  | [], sem => ([], sem)
  | msg_id :: rest, sem =>
    match sem.find? (fun r => r.id = msg_id) with
    | some r =>
      let r' := writeScores combined bmN semN msg_id r
      let sem' := updateFirst sem msg_id (writeScores combined bmN semN msg_id)
      let res := hybridBuild combined bmN semN bm25_results rest sem'
      (r' :: res.1, res.2)
    | none =>
      match bm25_results.find? (fun r => r.id = msg_id) with
      | some b =>
        let r' := writeScores combined bmN semN msg_id (fallbackFromBm b)
        let res := hybridBuild combined bmN semN bm25_results rest sem
        (r' :: res.1, res.2)
      | none => hybridBuild combined bmN semN bm25_results rest sem

/-- `HybridRetriever.hybrid_search` (hybrid_retrieval.py 107-209) in explicit
state-passing form: first component is the returned fused result list, second
component is the final state of the caller-supplied `semantic_results` list
(whose matched dicts the Python code mutates in place). -/
def hybridSearch (st : HybridRetriever) (query : String)
    (semantic_results : List SemResult) (bm25_weight : ℚ) (top_k : Nat) :
    List SemResult × List SemResult :=
  let bm25_results := searchBm25 st query 100 true
  let bmN := hybridBm25Norm bm25_results
  let semN := hybridSemNorm semantic_results
  let combined := hybridCombined bmN semN bm25_weight
  let sorted_ids := hybridSortedIds combined top_k
  hybridBuild combined bmN semN bm25_results sorted_ids semantic_results

/-! ### Dense index (`VectorStore.index_messages`, vector_store.py 51-108) -/

/-- One stored entry of the ChromaDB collection: id, embedding, enriched
document text, and the metadata written in vector_store.py 84-92. -/
structure DenseEntry where
  id : String
  embedding : List ℚ
  document : String
  user_id : String
  user_name : String
  timestamp : String
  original_message : String
deriving DecidableEq, Repr

/-- Entry preparation (vector_store.py 74-92): ids, enriched documents
(`f"{user_name} ({date}): {message}"`, the strftime date formatting supplied
as the abstract `fmtDate`), and metadata including the original message. The
parallel Python lists are paired positionally. -/
def mkDenseEntries (messages : List Message) (embeddings : List (List ℚ))
    (fmtDate : String → String) : List DenseEntry :=
  (messages.zip embeddings).map (fun p =>
    { id := p.1.id, embedding := p.2,
      document := p.1.user_name ++ " (" ++ fmtDate p.1.timestamp ++ "): " ++ p.1.message,
      user_id := p.1.user_id, user_name := p.1.user_name,
      timestamp := p.1.timestamp, original_message := p.1.message })

/-- Batched `collection.add` loop (vector_store.py 94-106): consecutive slices
of size 100 are appended in order, so the final content is the input followed
by all prepared entries. -/
def addBatches : List DenseEntry → List DenseEntry → List DenseEntry
  | store, [] => store
  | store, e :: es => addBatches (store ++ ((e :: es).take 100)) (es.drop 99)
termination_by _ l => l.length
decreasing_by simp; omega

/-- `VectorStore.index_messages` (vector_store.py 51-108): when the collection
already holds at least as many entries as the incoming batch the call returns
at once (lines 66-70); otherwise all prepared entries are added in batches.
The ChromaDB collection is modeled by its entry list. -/
def VectorStore.index_messages (store : List DenseEntry) (messages : List Message)
    (embeddings : List (List ℚ)) (fmtDate : String → String) : List DenseEntry :=
  if messages.length ≤ store.length then store
  else addBatches store (mkDenseEntries messages embeddings fmtDate)

/-! ### Confidence (`LLMService._determine_confidence`, llm_service.py 157-177) -/

/-- Context message as consumed by `_determine_confidence`: only the
`distance` key is ever read (with default `2.0`), so only that key is
modeled; the other keys built in routes.py 94-101 are never consulted. -/
structure ContextMsg where
  distance : Option ℚ
deriving DecidableEq, Repr

/-- Mean of the per-result distances (llm_service.py 169), each defaulting
to 2.0 when the key is absent. -/
def meanDist (ctx : List ContextMsg) : ℚ :=
  (ctx.map (fun m => m.distance.getD 2)).sum / ctx.length

/-- `LLMService._determine_confidence` (llm_service.py 157-177). -/
def determine_confidence (context_messages : List ContextMsg) : String :=
  if context_messages.isEmpty then "low"
  else if meanDist context_messages < 13/10 ∧ 5 ≤ context_messages.length then "high"
  else if meanDist context_messages < 16/10 ∧ 3 ≤ context_messages.length then "medium"
  else "low"

/-! ### Definitions modelled from the spec, for refinement comparisons -/

/-- Modelled from the spec: the character class `[A-Za-z0-9_]` of the
tokenization rule, written out as explicit code-point ranges. -/
def specIsAllowed (c : Char) : Bool :=
  (65 ≤ c.val && c.val ≤ 90) || (97 ≤ c.val && c.val ≤ 122) ||
  (48 ≤ c.val && c.val ≤ 57) || c = '_'

/-- Modelled from the spec: "lowercase input, replace every character outside
`[A-Za-z0-9_]` and whitespace with a space, split on whitespace". -/
def specTokenize (s : String) : List String :=
  let lowered := s.data.map Char.toLower
  let replaced := lowered.map (fun c => if specIsAllowed c || pyIsSpace c then c else ' ')
  (wsSplit replaced).map (fun t => String.mk t)

/-- Modelled from the spec: "ranking by normalized lexical score alone" over
the fused candidate pool — the union of ids sorted stably by normalized BM25
score (0 for an id with no lexical hit), descending, truncated to `top_k`. -/
def specLexicalRanking (bmN semN : List (String × ℚ)) (top_k : Nat) : List String :=
  (List.insertionSort (combinedLe bmN) (hybridAllIds bmN semN)).take top_k

/-- Modelled from the spec: "ranking by normalized dense similarity alone"
over the fused candidate pool. -/
def specDenseRanking (bmN semN : List (String × ℚ)) (top_k : Nat) : List String :=
  (List.insertionSort (combinedLe semN) (hybridAllIds bmN semN)).take top_k

/-! ### Proof infrastructure and concrete instances -/

/-- Projection of a semantic result dict onto the keys that `hybrid_search`
never overwrites (everything except the three fused-score keys). -/
def display (r : SemResult) : String × String × String × String × Option ℚ :=
  (r.id, r.document, r.user_name, r.timestamp, r.distance)

/-- Default element for positional list lookups in statements about the
mutated `semantic_results` list. -/
def semDefault : SemResult :=
  { id := "", document := "", user_name := "", timestamp := "", distance := none }

/-- Concrete retriever for witnesses: two indexed messages and a scorer that
gives both documents the same positive score, as BM25 does for a corpus of
two identical documents on any query matching them. -/
def wRetriever : HybridRetriever :=
  { bm25 := some (fun _ => [1, 1]),
    messages := [⟨"m0", "u0", "alice", "t0", "london trip"⟩,
                 ⟨"m1", "u1", "alice", "t1", "london trip"⟩],
    tokenizedCorpus := [["alice", "london", "trip"], ["alice", "london", "trip"]] }

/-- The scorer stored inside `wRetriever`. -/
def wScorer : List String → List ℚ := fun _ => [1, 1]

/-- Concrete semantic result for witnesses. -/
def wSem : SemResult :=
  { id := "m0", document := "d0", user_name := "alice", timestamp := "t0",
    distance := some 1 }

/-- Concrete single-message retriever for witnesses that instantiate the
fusion pipeline. -/
def wRetriever2 : HybridRetriever :=
  { bm25 := some (fun _ => [1]),
    messages := [⟨"m0", "u0", "alice", "t0", "london trip"⟩],
    tokenizedCorpus := [["alice", "london", "trip"]] }

/-! ## General list lemmas -/

theorem getD_mem {α : Type} {l : List α} {i : Nat} (h : i < l.length) (d : α) :
    l.getD i d ∈ l := by
  rw [List.getD_eq_getElem?_getD, List.getElem?_eq_getElem h]
  exact List.getElem_mem h

theorem lookup_mem {l : List (String × ℚ)} {k : String} {v : ℚ}
    (h : l.lookup k = some v) : (k, v) ∈ l := by
  induction l with
  | nil => cases h
  | cons p t ih =>
    obtain ⟨a, b⟩ := p
    rw [List.lookup_cons] at h
    rcases hk : k == a with _ | _
    · rw [hk] at h
      exact List.mem_cons_of_mem _ (ih h)
    · rw [hk] at h
      obtain rfl : b = v := by cases h; rfl
      obtain rfl : k = a := by exact eq_of_beq hk
      exact List.mem_cons_self _ _

/-! ## Claim C5: query expansion -/

theorem mem_expandQuery_self {toks : List String} {tok : String} (h : tok ∈ toks) :
    tok ∈ expandQuery toks := by
  rw [expandQuery, List.mem_dedup, List.mem_flatMap]
  exact ⟨tok, h, List.mem_cons_self _ _⟩

theorem mem_expandQuery_syn {toks : List String} {tok s : String} {syns : List String}
    (h : tok ∈ toks) (hl : QUERY_EXPANSIONS.lookup tok = some syns) (hs : s ∈ syns) :
    s ∈ expandQuery toks := by
  rw [expandQuery, List.mem_dedup, List.mem_flatMap]
  exact ⟨tok, h, List.mem_cons_of_mem _ (by rw [hl]; exact hs)⟩

/-- C5 counterexample: the expanded token collection of the query
"hello hello" has fewer elements than the original tokenization, because the
original token list contains a duplicate which the final set-conversion
removes. So the expanded collection can be smaller than the tokenization. -/
theorem expandQuery_shrinks :
    (expandQuery (tokenize "hello hello")).length < (tokenize "hello hello").length := by
  decide

/-- C5 amended: with expansion enabled, the expanded token collection is never
smaller than the deduplicated original tokenization, contains no duplicates,
contains every original token, and contains every synonym of each original
token present in the fixed synonym table. -/
theorem expandQuery_amended (q : String) :
    (tokenize q).dedup.length ≤ (expandQuery (tokenize q)).length ∧
    (expandQuery (tokenize q)).Nodup ∧
    (∀ tok ∈ tokenize q, tok ∈ expandQuery (tokenize q)) ∧
    (∀ tok ∈ tokenize q, ∀ syns, QUERY_EXPANSIONS.lookup tok = some syns →
      ∀ s ∈ syns, s ∈ expandQuery (tokenize q)) := by
  refine ⟨?_, List.nodup_dedup _, fun tok h => mem_expandQuery_self h,
    fun tok h syns hl s hs => mem_expandQuery_syn h hl hs⟩
  refine List.Subperm.length_le (List.Nodup.subperm (List.nodup_dedup _) ?_)
  intro tok htok
  exact mem_expandQuery_self (List.mem_dedup.mp htok)

/-! ## Claim C6: tokenization -/

theorem toNat_ofNat_of_lt {n : Nat} (h : n < 0xD800) : (Char.ofNat n).toNat = n := by
  rw [Char.ofNat, dif_pos (Or.inl h)]
  rfl

theorem toLower_ascii {c : Char} (h : c.toNat < 128) : (Char.toLower c).toNat < 128 := by
  rw [Char.toLower]
  split
  case isTrue hc => rw [toNat_ofNat_of_lt (by omega)]; omega
  case isFalse hc => exact h

theorem pyLower_eq_toLower_of_ascii {c : Char} (h : c.toNat < 128) :
    pyLower c = Char.toLower c := by
  rw [pyLower, Char.toLower]
  by_cases hAZ : 65 ≤ c.toNat ∧ c.toNat ≤ 90
  · rw [if_pos (Or.inl hAZ), if_pos hAZ]
  · rw [if_neg ?_, if_neg hAZ]
    rintro (h1 | h2)
    · exact hAZ h1
    · omega

theorem pyIsWordChar_eq_specIsAllowed_of_ascii {c : Char} (h : c.toNat < 128) :
    pyIsWordChar c = specIsAllowed c := by
  have hfalse : decide (c.toNat = 0xAA ∨ c.toNat = 0xB2 ∨ c.toNat = 0xB3 ∨
      c.toNat = 0xB5 ∨ c.toNat = 0xB9 ∨ c.toNat = 0xBA ∨
      (0xC0 ≤ c.toNat ∧ c.toNat ≤ 0xFF ∧ c.toNat ≠ 0xD7 ∧ c.toNat ≠ 0xF7)) = false :=
    decide_eq_false (by omega)
  rw [pyIsWordChar, hfalse, Bool.or_false]
  simp [specIsAllowed, Char.isAlphanum, Char.isAlpha, Char.isDigit,
    Char.isUpper, Char.isLower, ge_iff_le, Bool.or_assoc, Bool.or_comm, Bool.or_left_comm]

/-- C6 counterexample: the source tokenizer uses the Unicode-aware regex
class `\w`, which keeps the Latin-1 letter é, while the claimed rule
`[A-Za-z0-9_]` replaces it with a space: on "café" the code yields ["café"]
but the rule yields ["caf"], refuting the universally quantified
tokenization rule. -/
theorem tokenize_unicode_counterexample :
    tokenize "café" = ["café"] ∧ specTokenize "café" = ["caf"] ∧
    tokenize "café" ≠ specTokenize "café" := by
  decide

/-- C6 amended: on every ASCII input string the tokenizer agrees with the
spec-modelled rule (lowercase, replace every character outside
`[A-Za-z0-9_]` and whitespace with a space, split on whitespace), and in
particular "London?" and "london" both tokenize to the identical
single-token list ["london"]; on non-ASCII input the Unicode-aware regex
`\w` of the source keeps word characters that the rule strips. -/
theorem tokenize_spec_agreement :
    (∀ s : String, (∀ c ∈ s.data, c.toNat < 128) → tokenize s = specTokenize s) ∧
    tokenize "London?" = ["london"] ∧ tokenize "london" = ["london"] := by
  refine ⟨fun s hs => ?_, by decide, by decide⟩
  simp only [tokenize, specTokenize]
  have hl : s.data.map pyLower = s.data.map Char.toLower :=
    List.map_congr_left (fun c hc => pyLower_eq_toLower_of_ascii (hs c hc))
  rw [hl]
  have hcl : (s.data.map Char.toLower).map
        (fun c => if pyIsWordChar c || pyIsSpace c then c else ' ') =
      (s.data.map Char.toLower).map
        (fun c => if specIsAllowed c || pyIsSpace c then c else ' ') := by
    refine List.map_congr_left ?_
    intro c hc
    obtain ⟨c0, hc0, rfl⟩ := List.mem_map.mp hc
    rw [pyIsWordChar_eq_specIsAllowed_of_ascii (toLower_ascii (hs c0 hc0))]
  rw [hcl]

/-! ## Claim C7: confidence estimation -/

/-- C7: the confidence label is "high" exactly when the mean context distance
is below 1.3 and there are at least 5 contexts; otherwise "medium" exactly
when the mean is below 1.6 and there are at least 3 contexts; otherwise
"low"; and the empty context list yields "low" without error. -/
theorem confidence_characterization (ctx : List ContextMsg) :
    (determine_confidence ctx = "high" ↔ meanDist ctx < 13/10 ∧ 5 ≤ ctx.length) ∧
    (determine_confidence ctx = "medium" ↔
      ¬(meanDist ctx < 13/10 ∧ 5 ≤ ctx.length) ∧
      meanDist ctx < 16/10 ∧ 3 ≤ ctx.length) ∧
    (determine_confidence ctx = "low" ↔
      ¬(meanDist ctx < 13/10 ∧ 5 ≤ ctx.length) ∧
      ¬(meanDist ctx < 16/10 ∧ 3 ≤ ctx.length)) ∧
    determine_confidence [] = "low" := by
  refine ⟨?_, ?_, ?_, rfl⟩ <;>
  · rw [determine_confidence]
    rcases he : ctx.isEmpty with _ | _
    · simp only [Bool.false_eq_true, if_false]
      split_ifs with h1 h2 <;> simp_all
    · have hnil : ctx = [] := List.isEmpty_iff.mp he
      subst hnil
      simp_all [meanDist]

/-! ## Claim C9: querying before indexing -/

/-- C9: calling `search_bm25` before the index is built returns the empty
result list and leaves the retriever state unchanged. -/
theorem searchBm25_soft_failure (st : HybridRetriever) (query : String)
    (top_k : Nat) (use_expansion : Bool) (h : st.bm25 = none) :
    searchBm25S st query top_k use_expansion = ([], st) := by
  rw [searchBm25S, searchBm25, h]

theorem searchBm25_soft_failure_witness :
    searchBm25S HybridRetriever.init "When is the trip?" 100 true
      = ([], HybridRetriever.init) :=
  searchBm25_soft_failure HybridRetriever.init "When is the trip?" 100 true rfl

/-! ## Claim C4: idempotent dense indexing -/

/-- C4: when the dense index already holds at least as many entries as the
incoming batch, `index_messages` performs no insertion: the index (and hence
its count) is unchanged; in particular reindexing an unchanged corpus over an
already-built index is a no-op. -/
theorem index_messages_skip (store : List DenseEntry) (messages : List Message)
    (embeddings : List (List ℚ)) (fmtDate : String → String)
    (h : messages.length ≤ store.length) :
    VectorStore.index_messages store messages embeddings fmtDate = store ∧
    (VectorStore.index_messages store messages embeddings fmtDate).length
      = store.length := by
  rw [VectorStore.index_messages, if_pos h]
  exact ⟨rfl, rfl⟩

theorem index_messages_skip_witness :
    VectorStore.index_messages
        [⟨"m0", [1], "alice (t0): london trip", "u0", "alice", "t0", "london trip"⟩]
        [⟨"m0", "u0", "alice", "t0", "london trip"⟩] [[1]] (fun t => t)
      = [⟨"m0", [1], "alice (t0): london trip", "u0", "alice", "t0", "london trip"⟩] ∧
    (VectorStore.index_messages
        [⟨"m0", [1], "alice (t0): london trip", "u0", "alice", "t0", "london trip"⟩]
        [⟨"m0", "u0", "alice", "t0", "london trip"⟩] [[1]] (fun t => t)).length = 1 :=
  index_messages_skip _ _ _ _ (by decide)

/-! ## Claim C2: BM25 result ordering -/

instance (scores : List ℚ) : IsTrans Nat (idxLe scores) := by
  constructor
  intro a b c hab hbc
  rcases hab with h | ⟨he, hi⟩ <;> rcases hbc with h2 | ⟨he2, hi2⟩
  · exact Or.inl (lt_trans h h2)
  · exact Or.inl (he2 ▸ h)
  · exact Or.inl (he ▸ h2)
  · exact Or.inr ⟨he.trans he2, le_trans hi hi2⟩

instance (scores : List ℚ) : IsTotal Nat (idxLe scores) := by
  constructor
  intro a b
  rcases lt_trichotomy (scores.getD a 0) (scores.getD b 0) with h | h | h
  · exact Or.inl (Or.inl h)
  · rcases le_total a b with hab | hba
    · exact Or.inl (Or.inr ⟨h, hab⟩)
    · exact Or.inr (Or.inr ⟨h.symm, hba⟩)
  · exact Or.inr (Or.inl h)

theorem argsortAsc_pairwise (scores : List ℚ) :
    (argsortAsc scores).Pairwise (fun i j =>
      scores.getD i 0 < scores.getD j 0 ∨
      (scores.getD i 0 = scores.getD j 0 ∧ i < j)) := by
  have hs : (argsortAsc scores).Pairwise (idxLe scores) :=
    List.sorted_insertionSort (idxLe scores) (List.range scores.length)
  have hn : (argsortAsc scores).Nodup :=
    ((List.perm_insertionSort (idxLe scores) (List.range scores.length)).symm).nodup
      (List.nodup_range _)
  refine (hs.and hn).imp ?_
  rintro i j ⟨hle, hne⟩
  rcases hle with h | ⟨heq, hij⟩
  · exact Or.inl h
  · exact Or.inr ⟨heq, lt_of_le_of_ne hij hne⟩

theorem topKIndices_pairwise (scores : List ℚ) (top_k : Nat) :
    (topKIndices scores top_k).Pairwise (fun i j =>
      scores.getD j 0 < scores.getD i 0 ∨
      (scores.getD i 0 = scores.getD j 0 ∧ j < i)) := by
  rw [topKIndices]
  refine List.Pairwise.sublist (List.take_sublist _ _) ?_
  rw [List.pairwise_reverse]
  refine (argsortAsc_pairwise scores).imp ?_
  rintro i j (h | ⟨heq, hlt⟩)
  · exact Or.inl h
  · exact Or.inr ⟨heq.symm, hlt⟩

theorem bm25ResultAt_some {msgs : List Message} {scores : List ℚ} {idx : Nat}
    {r : BmResult} (h : bm25ResultAt msgs scores idx = some r) :
    r.bm25_score = scores.getD idx 0 ∧ 0 < scores.getD idx 0 := by
  rw [bm25ResultAt] at h
  split at h
  case isTrue hpos =>
    rcases hm : msgs[idx]? with _ | msg
    · rw [hm] at h; cases h
    · rw [hm] at h; cases h; exact ⟨rfl, hpos⟩
  case isFalse hpos => cases h

theorem searchBm25_eq_filterMap {st : HybridRetriever} {f : List String → List ℚ}
    (hb : st.bm25 = some f) (query : String) (top_k : Nat) :
    searchBm25 st query top_k true =
      (topKIndices (f (expandQuery (tokenize query))) top_k).filterMap
        (bm25ResultAt st.messages (f (expandQuery (tokenize query)))) := by
  simp only [searchBm25, hb, if_true]

/-- C2 amended: `search_bm25` keeps only documents with strictly positive
score, sorted by descending score, at most `top_k` of them; but documents
with equal scores appear in reverse corpus order (larger corpus index first),
because the code reverses an ascending argsort — not in original corpus
order as claimed. -/
theorem searchBm25_order_amended (st : HybridRetriever) (f : List String → List ℚ)
    (query : String) (top_k : Nat) (hb : st.bm25 = some f) :
    (searchBm25 st query top_k true).length ≤ top_k ∧
    (∀ r ∈ searchBm25 st query top_k true, 0 < r.bm25_score) ∧
    (searchBm25 st query top_k true).Pairwise
      (fun a b => b.bm25_score ≤ a.bm25_score) ∧
    (topKIndices (f (expandQuery (tokenize query))) top_k).Pairwise (fun i j =>
      (f (expandQuery (tokenize query))).getD j 0
          < (f (expandQuery (tokenize query))).getD i 0 ∨
      ((f (expandQuery (tokenize query))).getD i 0
          = (f (expandQuery (tokenize query))).getD j 0 ∧ j < i)) ∧
    searchBm25 st query top_k true =
      (topKIndices (f (expandQuery (tokenize query))) top_k).filterMap
        (bm25ResultAt st.messages (f (expandQuery (tokenize query)))) := by
  have heq := searchBm25_eq_filterMap hb query top_k
  refine ⟨?_, ?_, ?_, topKIndices_pairwise _ _, heq⟩
  · rw [heq]
    refine le_trans (List.length_filterMap_le _ _) ?_
    rw [topKIndices]
    exact List.length_take_le _ _
  · intro r hr
    rw [heq] at hr
    obtain ⟨idx, _, hsome⟩ := List.mem_filterMap.mp hr
    obtain ⟨hscore, hpos⟩ := bm25ResultAt_some hsome
    rw [hscore]
    exact hpos
  · rw [heq, List.pairwise_filterMap]
    refine (topKIndices_pairwise _ _).imp ?_
    rintro i j h x hx y hy
    obtain ⟨hxs, _⟩ := bm25ResultAt_some (Option.mem_def.mp hx)
    obtain ⟨hys, _⟩ := bm25ResultAt_some (Option.mem_def.mp hy)
    rw [hxs, hys]
    rcases h with h | ⟨heq2, _⟩
    · exact le_of_lt h
    · exact le_of_eq heq2.symm

/-- C2 counterexample: a corpus of two identical documents, scored equally
and positively (as BM25 scores identical documents for any query); the code
returns them in reverse corpus order, refuting the stable-by-corpus-order
tie rule. -/
theorem searchBm25_tie_counterexample :
    (searchBm25 wRetriever "trip" 100 true).map BmResult.bm25_score = [1, 1] ∧
    (searchBm25 wRetriever "trip" 100 true).map BmResult.id = ["m1", "m0"] ∧
    wRetriever.messages.map Message.id = ["m0", "m1"] := by
  decide

theorem searchBm25_order_amended_witness :
    (searchBm25 wRetriever "trip" 100 true).length ≤ 100 ∧
    searchBm25 wRetriever "trip" 100 true =
      (topKIndices (wScorer (expandQuery (tokenize "trip"))) 100).filterMap
        (bm25ResultAt wRetriever.messages (wScorer (expandQuery (tokenize "trip")))) :=
  ⟨(searchBm25_order_amended wRetriever wScorer "trip" 100 rfl).1,
   (searchBm25_order_amended wRetriever wScorer "trip" 100 rfl).2.2.2.2⟩

/-! ## Dict lemmas shared by the fusion claims -/

theorem lookup_map_graph {l : List String} {g : String → ℚ} {k : String} (h : k ∈ l) :
    (l.map (fun a => (a, g a))).lookup k = some (g k) := by
  induction l with
  | nil => cases h
  | cons a t ih =>
    by_cases hk : k = a
    · subst hk; simp [List.lookup_cons]
    · have hk' : (k == a) = false := beq_eq_false_iff_ne.mpr hk
      have hmem : k ∈ t := (List.mem_cons.mp h).resolve_left hk
      simp [List.lookup_cons, hk', ih hmem]

theorem lookup_map_graph_none {l : List String} {g : String → ℚ} {k : String}
    (h : k ∉ l) :
    (l.map (fun a => (a, g a))).lookup k = none := by
  induction l with
  | nil => rfl
  | cons a t ih =>
    have hk : (k == a) = false :=
      beq_eq_false_iff_ne.mpr (fun e => h (by rw [e]; exact List.mem_cons_self _ _))
    simp only [List.map_cons, List.lookup_cons, hk]
    exact ih (fun hm => h (List.mem_cons_of_mem _ hm))

theorem lookup_map_div {d : List (String × ℚ)} {m : ℚ} {k : String} :
    (d.map (fun p => (p.1, p.2 / m))).lookup k = (d.lookup k).map (fun v => v / m) := by
  induction d with
  | nil => rfl
  | cons p t ih =>
    obtain ⟨a, b⟩ := p
    rcases hk : k == a with _ | _ <;> simp [List.lookup_cons, hk, ih]

theorem mem_dinsert {d : List (String × ℚ)} {k : String} {v : ℚ} {p : String × ℚ}
    (h : p ∈ dinsert d k v) : p ∈ d ∨ p = (k, v) := by
  rw [dinsert] at h
  split at h
  · obtain ⟨q, hq, he⟩ := List.mem_map.mp h
    by_cases hqk : q.1 = k
    · rw [if_pos hqk] at he; exact Or.inr he.symm
    · rw [if_neg hqk] at he; exact Or.inl (he ▸ hq)
  · rcases List.mem_append.mp h with h1 | h2
    · exact Or.inl h1
    · exact Or.inr (by simpa using h2)

theorem mem_dictOf_aux : ∀ (l d : List (String × ℚ)) (p : String × ℚ),
    p ∈ l.foldl (fun d q => dinsert d q.1 q.2) d → p ∈ d ∨ p ∈ l := by
  intro l
  induction l with
  | nil => intro d p h; exact Or.inl h
  | cons q t ih =>
    intro d p h
    rw [List.foldl_cons] at h
    rcases ih _ p h with h1 | h2
    · rcases mem_dinsert h1 with h3 | h4
      · exact Or.inl h3
      · right; rw [h4, Prod.mk.eta]; exact List.mem_cons_self _ _
    · exact Or.inr (List.mem_cons_of_mem _ h2)

theorem mem_dictOf {l : List (String × ℚ)} {p : String × ℚ} (h : p ∈ dictOf l) :
    p ∈ l := by
  rcases mem_dictOf_aux l [] p h with h1 | h2
  · cases h1
  · exact h2

theorem mem_dkeys_dinsert {d : List (String × ℚ)} {k a : String} {v : ℚ} :
    a ∈ dkeys (dinsert d k v) ↔ a ∈ dkeys d ∨ a = k := by
  rw [dinsert]
  split
  case isTrue hany =>
    have hkeys : dkeys (d.map fun p => if p.1 = k then (k, v) else p) = dkeys d := by
      rw [dkeys, dkeys, List.map_map]
      refine List.map_congr_left ?_
      intro p _
      by_cases h : p.1 = k <;> simp [h]
    rw [hkeys]
    constructor
    · exact Or.inl
    · rintro (h | rfl)
      · exact h
      · obtain ⟨q, hq, hqk⟩ := List.any_eq_true.mp hany
        exact List.mem_map.mpr ⟨q, hq, of_decide_eq_true hqk⟩
  case isFalse =>
    simp [dkeys, List.mem_map]

theorem mem_dkeys_dictOf_aux : ∀ (l d : List (String × ℚ)) (a : String),
    a ∈ dkeys (l.foldl (fun d q => dinsert d q.1 q.2) d) ↔
      a ∈ dkeys d ∨ a ∈ l.map Prod.fst := by
  intro l
  induction l with
  | nil => intro d a; simp
  | cons q t ih =>
    intro d a
    rw [List.foldl_cons, ih, mem_dkeys_dinsert, List.map_cons, List.mem_cons]
    tauto

theorem mem_dkeys_dictOf {l : List (String × ℚ)} {a : String} :
    a ∈ dkeys (dictOf l) ↔ a ∈ l.map Prod.fst := by
  rw [dictOf, mem_dkeys_dictOf_aux]
  simp [dkeys]

theorem le_foldl_max : ∀ (xs : List ℚ) (a : ℚ), a ≤ xs.foldl max a := by
  intro xs
  induction xs with
  | nil => intro a; exact le_refl a
  | cons x t ih =>
    intro a
    rw [List.foldl_cons]
    exact le_trans (le_max_left a x) (ih (max a x))

theorem mem_le_foldl_max : ∀ {xs : List ℚ} {v : ℚ} (a : ℚ), v ∈ xs → v ≤ xs.foldl max a := by
  intro xs
  induction xs with
  | nil => intro v a h; cases h
  | cons x t ih =>
    intro v a h
    rw [List.foldl_cons]
    rcases List.mem_cons.mp h with rfl | hm
    · exact le_trans (le_max_right a v) (le_foldl_max t _)
    · exact ih _ hm

theorem le_maxVal {l : List ℚ} {v : ℚ} (h : v ∈ l) : v ≤ maxVal l := by
  cases l with
  | nil => cases h
  | cons x t =>
    rw [maxVal]
    rcases List.mem_cons.mp h with rfl | hm
    · exact le_foldl_max t v
    · exact mem_le_foldl_max x hm

theorem normalized_lookup_bound {raw : List (String × ℚ)}
    (hpos : ∀ p ∈ raw, 0 < p.2) {x : String} {v : ℚ}
    (h : (raw.map (fun p => (p.1, p.2 / maxVal (dvalues raw)))).lookup x = some v) :
    0 < v ∧ v ≤ 1 := by
  rw [lookup_map_div] at h
  rcases hraw : raw.lookup x with _ | v0
  · rw [hraw] at h; cases h
  · rw [hraw] at h
    obtain rfl : v0 / maxVal (dvalues raw) = v := by cases h; rfl
    have hmem : (x, v0) ∈ raw := lookup_mem hraw
    have hv0 : 0 < v0 := hpos _ hmem
    have hvals : v0 ∈ dvalues raw := List.mem_map.mpr ⟨(x, v0), hmem, rfl⟩
    have hle : v0 ≤ maxVal (dvalues raw) := le_maxVal hvals
    have hmax : 0 < maxVal (dvalues raw) := lt_of_lt_of_le hv0 hle
    exact ⟨div_pos hv0 hmax, (div_le_one hmax).mpr hle⟩

theorem dget_hybridCombined {bmN semN : List (String × ℚ)} {w : ℚ} {x : String} :
    dget (hybridCombined bmN semN w) x =
      if x ∈ hybridAllIds bmN semN then
        some (w * (dget bmN x).getD 0 + (1 - w) * (dget semN x).getD 0)
      else none := by
  rw [hybridCombined, dget]
  by_cases hx : x ∈ hybridAllIds bmN semN
  · rw [if_pos hx, lookup_map_graph hx]
  · rw [if_neg hx, lookup_map_graph_none hx]

theorem dkeys_hybridCombined {bmN semN : List (String × ℚ)} {w : ℚ} :
    dkeys (hybridCombined bmN semN w) = hybridAllIds bmN semN := by
  rw [hybridCombined, dkeys, List.map_map]
  exact List.map_id _

theorem mem_hybridAllIds {bmN semN : List (String × ℚ)} {x : String} :
    x ∈ hybridAllIds bmN semN ↔ x ∈ dkeys bmN ∨ x ∈ dkeys semN := by
  rw [hybridAllIds, List.mem_dedup, List.mem_append]

theorem dget_none_of_not_mem_allIds {bmN semN : List (String × ℚ)} {x : String}
    (h : x ∉ hybridAllIds bmN semN) : dget bmN x = none ∧ dget semN x = none := by
  constructor
  · rcases hd : dget bmN x with _ | v
    · rfl
    · exact absurd
        (mem_hybridAllIds.mpr (Or.inl (List.mem_map.mpr ⟨(x, v), lookup_mem hd, rfl⟩))) h
  · rcases hd : dget semN x with _ | v
    · rfl
    · exact absurd
        (mem_hybridAllIds.mpr (Or.inr (List.mem_map.mpr ⟨(x, v), lookup_mem hd, rfl⟩))) h

/-! ## Claim C3: weight extremes -/

theorem orderedInsert_congr {α : Type} {r r' : α → α → Prop}
    [DecidableRel r] [DecidableRel r'] (h : ∀ a b, r a b ↔ r' a b) (a : α) :
    ∀ l : List α, List.orderedInsert r a l = List.orderedInsert r' a l
  | [] => rfl
  | b :: l => by
    rw [List.orderedInsert, List.orderedInsert]
    by_cases hr : r a b
    · rw [if_pos hr, if_pos ((h a b).mp hr)]
    · rw [if_neg hr, if_neg (fun k => hr ((h a b).mpr k)), orderedInsert_congr h a l]

theorem insertionSort_congr {α : Type} {r r' : α → α → Prop}
    [DecidableRel r] [DecidableRel r'] (h : ∀ a b, r a b ↔ r' a b) :
    ∀ l : List α, List.insertionSort r l = List.insertionSort r' l
  | [] => rfl
  | a :: l => by
    rw [List.insertionSort, List.insertionSort, insertionSort_congr h l,
      orderedInsert_congr h a _]

theorem combined_weight_one {bmN semN : List (String × ℚ)} (x : String) :
    (dget (hybridCombined bmN semN 1) x).getD 0 = (dget bmN x).getD 0 := by
  rw [dget_hybridCombined]
  by_cases hx : x ∈ hybridAllIds bmN semN
  · rw [if_pos hx, Option.getD_some]; ring
  · rw [if_neg hx, (dget_none_of_not_mem_allIds hx).1]

theorem combined_weight_zero {bmN semN : List (String × ℚ)} (x : String) :
    (dget (hybridCombined bmN semN 0) x).getD 0 = (dget semN x).getD 0 := by
  rw [dget_hybridCombined]
  by_cases hx : x ∈ hybridAllIds bmN semN
  · rw [if_pos hx, Option.getD_some]; ring
  · rw [if_neg hx, (dget_none_of_not_mem_allIds hx).2]

theorem hybridSortedIds_weight_one (bmN semN : List (String × ℚ)) (k : Nat) :
    hybridSortedIds (hybridCombined bmN semN 1) k = specLexicalRanking bmN semN k := by
  rw [hybridSortedIds, specLexicalRanking, dkeys_hybridCombined]
  congr 1
  apply insertionSort_congr
  intro a b
  rw [combinedLe, combinedLe, combined_weight_one a, combined_weight_one b]

theorem hybridSortedIds_weight_zero (bmN semN : List (String × ℚ)) (k : Nat) :
    hybridSortedIds (hybridCombined bmN semN 0) k = specDenseRanking bmN semN k := by
  rw [hybridSortedIds, specDenseRanking, dkeys_hybridCombined]
  congr 1
  apply insertionSort_congr
  intro a b
  rw [combinedLe, combinedLe, combined_weight_zero a, combined_weight_zero b]

/-- C3: with bm25_weight = 1 the fused ranking is identical to ranking the
candidate pool by normalized lexical score alone; with bm25_weight = 0, to
ranking by normalized dense similarity alone (the spec-modelled rankings). -/
theorem weight_extremes_ranking (st : HybridRetriever) (query : String)
    (sem : List SemResult) (top_k : Nat) :
    let bmN := hybridBm25Norm (searchBm25 st query 100 true)
    let semN := hybridSemNorm sem
    hybridSortedIds (hybridCombined bmN semN 1) top_k
        = specLexicalRanking bmN semN top_k ∧
    hybridSortedIds (hybridCombined bmN semN 0) top_k
        = specDenseRanking bmN semN top_k := by
  exact ⟨hybridSortedIds_weight_one _ _ _, hybridSortedIds_weight_zero _ _ _⟩

/-! ## Claim C1: fused scores lie in the unit interval -/

theorem searchBm25_pos {st : HybridRetriever} {query : String} {top_k : Nat}
    {use_expansion : Bool} : ∀ r ∈ searchBm25 st query top_k use_expansion,
      0 < r.bm25_score := by
  intro r hr
  rcases hb : st.bm25 with _ | f
  · simp [searchBm25, hb] at hr
  · simp only [searchBm25, hb] at hr
    obtain ⟨idx, _, hsome⟩ := List.mem_filterMap.mp hr
    obtain ⟨hscore, hpos⟩ := bm25ResultAt_some hsome
    rw [hscore]
    exact hpos

theorem dget_hybridBm25Norm_bound {bm : List BmResult}
    (hpos : ∀ r ∈ bm, 0 < r.bm25_score) {x : String} {v : ℚ}
    (h : dget (hybridBm25Norm bm) x = some v) : 0 < v ∧ v ≤ 1 := by
  simp only [dget, hybridBm25Norm] at h
  split at h
  case isTrue he =>
    rw [List.isEmpty_iff.mp he] at h
    cases h
  case isFalse he =>
    apply normalized_lookup_bound ?_ h
    intro p hp
    rw [hybridBm25Raw] at hp
    obtain ⟨r, hr, rfl⟩ := List.mem_map.mp (mem_dictOf hp)
    exact hpos r hr

theorem dget_hybridSemNorm_bound {sem : List SemResult}
    (hd : ∀ r ∈ sem, 0 ≤ r.distance.getD 2) {x : String} {v : ℚ}
    (h : dget (hybridSemNorm sem) x = some v) : 0 < v ∧ v ≤ 1 := by
  simp only [dget, hybridSemNorm] at h
  split at h
  case isTrue he =>
    rw [List.isEmpty_iff.mp he] at h
    cases h
  case isFalse he =>
    apply normalized_lookup_bound ?_ h
    intro p hp
    rw [hybridSemRaw] at hp
    obtain ⟨r, hr, rfl⟩ := List.mem_map.mp (mem_dictOf hp)
    have h0 : (0:ℚ) ≤ r.distance.getD 2 := hd r hr
    have h1 : (0:ℚ) < 1 + r.distance.getD 2 := by linarith
    exact one_div_pos.mpr h1

theorem combined_getD_bound {bmN semN : List (String × ℚ)} {w : ℚ}
    (hw0 : 0 ≤ w) (hw1 : w ≤ 1)
    (hbm : ∀ x v, dget bmN x = some v → 0 < v ∧ v ≤ 1)
    (hsem : ∀ x v, dget semN x = some v → 0 < v ∧ v ≤ 1) (x : String) :
    0 ≤ (dget (hybridCombined bmN semN w) x).getD 0 ∧
    (dget (hybridCombined bmN semN w) x).getD 0 ≤ 1 := by
  rw [dget_hybridCombined]
  by_cases hx : x ∈ hybridAllIds bmN semN
  · rw [if_pos hx, Option.getD_some]
    have hb : 0 ≤ (dget bmN x).getD 0 ∧ (dget bmN x).getD 0 ≤ 1 := by
      rcases hd : dget bmN x with _ | v
      · exact ⟨le_refl 0, by norm_num⟩
      · obtain ⟨h1, h2⟩ := hbm x v hd
        exact ⟨le_of_lt h1, h2⟩
    have hs : 0 ≤ (dget semN x).getD 0 ∧ (dget semN x).getD 0 ≤ 1 := by
      rcases hd : dget semN x with _ | v
      · exact ⟨le_refl 0, by norm_num⟩
      · obtain ⟨h1, h2⟩ := hsem x v hd
        exact ⟨le_of_lt h1, h2⟩
    obtain ⟨hb0, hb1⟩ := hb
    obtain ⟨hs0, hs1⟩ := hs
    constructor
    · have := mul_nonneg hw0 hb0
      have := mul_nonneg (by linarith : (0:ℚ) ≤ 1 - w) hs0
      linarith
    · have h1 : w * (dget bmN x).getD 0 ≤ w * 1 := by
        exact mul_le_mul_of_nonneg_left hb1 hw0
      have h2 : (1 - w) * (dget semN x).getD 0 ≤ (1 - w) * 1 := by
        exact mul_le_mul_of_nonneg_left hs1 (by linarith)
      linarith
  · rw [if_neg hx]
    norm_num

theorem hybridBuild_mem_results {c bN sN : List (String × ℚ)} {bm : List BmResult} :
    ∀ {ids : List String} {sem : List SemResult} {r : SemResult},
      r ∈ (hybridBuild c bN sN bm ids sem).1 →
      ∃ msg_id base, msg_id ∈ ids ∧ r = writeScores c bN sN msg_id base := by
  intro ids
  induction ids with
  | nil => intro sem r hr; simp [hybridBuild] at hr
  | cons m rest ih =>
    intro sem r hr
    rw [hybridBuild] at hr
    rcases h1 : sem.find? (fun x => x.id = m) with _ | s
    · rw [h1] at hr
      rcases h2 : bm.find? (fun x => x.id = m) with _ | b
      · rw [h2] at hr
        obtain ⟨msg_id, base, hm, he⟩ := ih hr
        exact ⟨msg_id, base, List.mem_cons_of_mem _ hm, he⟩
      · rw [h2] at hr
        rcases List.mem_cons.mp hr with rfl | htail
        · exact ⟨m, fallbackFromBm b, List.mem_cons_self _ _, rfl⟩
        · obtain ⟨msg_id, base, hm, he⟩ := ih htail
          exact ⟨msg_id, base, List.mem_cons_of_mem _ hm, he⟩
    · rw [h1] at hr
      rcases List.mem_cons.mp hr with rfl | htail
      · exact ⟨m, s, List.mem_cons_self _ _, rfl⟩
      · obtain ⟨msg_id, base, hm, he⟩ := ih htail
        exact ⟨msg_id, base, List.mem_cons_of_mem _ hm, he⟩

/-- C1: every result of `hybrid_search` carries a fused score `hybrid_score`
and it lies in the unit interval, for any query, any semantic result list
with non-negative distances, and any bm25 weight in the unit interval. -/
theorem hybrid_score_unit_interval (st : HybridRetriever) (query : String)
    (sem : List SemResult) (w : ℚ) (top_k : Nat)
    (hw0 : 0 ≤ w) (hw1 : w ≤ 1)
    (hd : ∀ r ∈ sem, 0 ≤ r.distance.getD 2) :
    ∀ r ∈ (hybridSearch st query sem w top_k).1,
      ∃ h, r.hybrid_score = some h ∧ 0 ≤ h ∧ h ≤ 1 := by
  intro r hr
  obtain ⟨m, base, _, rfl⟩ := hybridBuild_mem_results hr
  refine ⟨_, rfl, ?_⟩
  exact combined_getD_bound hw0 hw1
    (fun x v h => dget_hybridBm25Norm_bound searchBm25_pos h)
    (fun x v h => dget_hybridSemNorm_bound hd h) m

theorem hybrid_score_unit_interval_witness :
    0 ≤ ((hybridSearch wRetriever2 "trip" [wSem] (3/5) 25).1.getD 0
        semDefault).hybrid_score.getD 0 ∧
    ((hybridSearch wRetriever2 "trip" [wSem] (3/5) 25).1.getD 0
        semDefault).hybrid_score.getD 0 ≤ 1 := by
  obtain ⟨h, he, h0, h1⟩ :=
    hybrid_score_unit_interval wRetriever2 "trip" [wSem] (3/5) 25
      (by norm_num) (by norm_num) (by decide)
      ((hybridSearch wRetriever2 "trip" [wSem] (3/5) 25).1.getD 0 semDefault)
      (getD_mem (by decide) semDefault)
  rw [he]
  exact ⟨h0, h1⟩

/-! ## Claim C8: union scoring and display recovery -/

theorem dkeys_hybridBm25Norm {bm : List BmResult} :
    dkeys (hybridBm25Norm bm) = dkeys (hybridBm25Raw bm) := by
  simp only [hybridBm25Norm]
  split
  · rfl
  · rw [dkeys, dkeys, List.map_map]; rfl

theorem mem_dkeys_hybridBm25Norm {bm : List BmResult} {x : String} :
    x ∈ dkeys (hybridBm25Norm bm) ↔ x ∈ bm.map BmResult.id := by
  rw [dkeys_hybridBm25Norm, hybridBm25Raw, mem_dkeys_dictOf, List.map_map]
  exact Iff.rfl

theorem dkeys_hybridSemNorm {sem : List SemResult} :
    dkeys (hybridSemNorm sem) = dkeys (hybridSemRaw sem) := by
  simp only [hybridSemNorm]
  split
  · rfl
  · rw [dkeys, dkeys, List.map_map]; rfl

theorem mem_dkeys_hybridSemNorm {sem : List SemResult} {x : String} :
    x ∈ dkeys (hybridSemNorm sem) ↔ x ∈ sem.map SemResult.id := by
  rw [dkeys_hybridSemNorm, hybridSemRaw, mem_dkeys_dictOf, List.map_map]
  exact Iff.rfl

theorem writeScores_display {c bN sN : List (String × ℚ)} {m : String} {r : SemResult} :
    display (writeScores c bN sN m r) = display r := rfl

theorem display_id {a b : SemResult} (h : display a = display b) : a.id = b.id :=
  congrArg (fun p => p.1) h

theorem updateFirst_display {l : List SemResult} {m : String}
    {c bN sN : List (String × ℚ)} :
    (updateFirst l m (writeScores c bN sN m)).map display = l.map display := by
  induction l with
  | nil => rfl
  | cons r rs ih =>
    rw [updateFirst]
    by_cases h : r.id = m
    · rw [if_pos h, List.map_cons, List.map_cons, writeScores_display]
    · rw [if_neg h, List.map_cons, List.map_cons, ih]

theorem find?_display {l : List SemResult} :
    ∀ {l' : List SemResult}, l.map display = l'.map display → ∀ m : String,
      Option.map display (l.find? (fun x => x.id = m)) =
      Option.map display (l'.find? (fun x => x.id = m)) := by
  induction l with
  | nil =>
    intro l' h m
    cases l' with
    | nil => rfl
    | cons b t => cases h
  | cons a t ih =>
    intro l' h m
    cases l' with
    | nil => cases h
    | cons b t' =>
      rw [List.map_cons, List.map_cons] at h
      injection h with hab ht
      have hid : a.id = b.id := display_id hab
      by_cases hm : a.id = m
      · rw [List.find?_cons_of_pos _ (by simp [hm]),
          List.find?_cons_of_pos _ (by simp [hid ▸ hm])]
        rw [Option.map_some', Option.map_some', hab]
      · rw [List.find?_cons_of_neg _ (by simp [hm]),
          List.find?_cons_of_neg _ (by simp [hid ▸ hm])]
        exact ih ht m

theorem hybridBuild_display {c bN sN : List (String × ℚ)} {bm : List BmResult}
    {sem0 : List SemResult} :
    ∀ {ids : List String} {sem : List SemResult},
      sem.map display = sem0.map display →
      ∀ r ∈ (hybridBuild c bN sN bm ids sem).1,
        (∃ s, sem0.find? (fun x => x.id = r.id) = some s ∧ display r = display s) ∨
        (sem0.find? (fun x => x.id = r.id) = none ∧
         ∃ b, bm.find? (fun x => x.id = r.id) = some b ∧
           r.document = b.document ∧ r.user_name = b.user_name ∧
           r.timestamp = b.timestamp ∧ r.distance = some (1/2)) := by
  intro ids
  induction ids with
  | nil => intro sem h r hr; simp [hybridBuild] at hr
  | cons m rest ih =>
    intro sem h r hr
    rw [hybridBuild] at hr
    rcases h1 : sem.find? (fun x => x.id = m) with _ | s
    · rw [h1] at hr
      rcases h2 : bm.find? (fun x => x.id = m) with _ | b
      · rw [h2] at hr
        exact ih h r hr
      · rw [h2] at hr
        rcases List.mem_cons.mp hr with rfl | htail
        · right
          have hbid : b.id = m := by simpa using List.find?_some h2
          have hrid : (writeScores c bN sN m (fallbackFromBm b)).id = m := hbid
          constructor
          · rw [hrid]
            have hfd := find?_display h m
            rw [h1, Option.map_none'] at hfd
            exact Option.map_eq_none'.mp hfd.symm
          · refine ⟨b, ?_, rfl, rfl, rfl, rfl⟩
            rw [hrid]
            exact h2
        · exact ih h r htail
    · rw [h1] at hr
      rcases List.mem_cons.mp hr with rfl | htail
      · left
        have hsid : s.id = m := by simpa using List.find?_some h1
        have hfd := find?_display h m
        rw [h1] at hfd
        rcases h0 : sem0.find? (fun x => x.id = m) with _ | s0
        · rw [h0] at hfd; cases hfd
        · rw [h0, Option.map_some', Option.map_some'] at hfd
          have hrid : (writeScores c bN sN m s).id = m := hsid
          refine ⟨s0, ?_, ?_⟩
          · rw [hrid]; exact h0
          · calc display (writeScores c bN sN m s) = display s := writeScores_display
              _ = display s0 := by injection hfd
      · refine ih ?_ r htail
        calc (updateFirst sem m (writeScores c bN sN m)).map display
            = sem.map display := updateFirst_display
          _ = sem0.map display := h

/-- C8: every id present in either input list is scored (union semantics),
with 0 substituted for a missing contribution rather than exclusion; and each
surviving result recovers its display fields preferentially from the first
matching dense result, falling back to the first matching lexical result with
the placeholder distance 0.5 when the id has no dense counterpart. -/
theorem hybrid_union_and_recovery (st : HybridRetriever) (query : String)
    (sem : List SemResult) (w : ℚ) (top_k : Nat) :
    let bm := searchBm25 st query 100 true
    let bmN := hybridBm25Norm bm
    let semN := hybridSemNorm sem
    let combined := hybridCombined bmN semN w
    (∀ x, x ∈ dkeys combined ↔
      (x ∈ bm.map BmResult.id ∨ x ∈ sem.map SemResult.id)) ∧
    (∀ x ∈ dkeys combined, x ∉ bm.map BmResult.id →
      dget combined x = some (w * 0 + (1 - w) * (dget semN x).getD 0)) ∧
    (∀ x ∈ dkeys combined, x ∉ sem.map SemResult.id →
      dget combined x = some (w * (dget bmN x).getD 0 + (1 - w) * 0)) ∧
    (∀ r ∈ (hybridSearch st query sem w top_k).1,
      (r.id ∈ sem.map SemResult.id →
        ∃ s, sem.find? (fun x => x.id = r.id) = some s ∧
          r.document = s.document ∧ r.user_name = s.user_name ∧
          r.timestamp = s.timestamp ∧ r.distance = s.distance) ∧
      (r.id ∉ sem.map SemResult.id →
        ∃ b, bm.find? (fun x => x.id = r.id) = some b ∧
          r.document = b.document ∧ r.user_name = b.user_name ∧
          r.timestamp = b.timestamp ∧ r.distance = some (1/2))) := by
  intro bm bmN semN combined
  refine ⟨?_, ?_, ?_, ?_⟩
  · intro x
    rw [dkeys_hybridCombined, mem_hybridAllIds, mem_dkeys_hybridBm25Norm,
      mem_dkeys_hybridSemNorm]
  · intro x hx hnb
    rw [dkeys_hybridCombined] at hx
    rw [dget_hybridCombined, if_pos hx]
    have hnone : dget bmN x = none := by
      rcases hd : dget bmN x with _ | v
      · rfl
      · exact absurd (mem_dkeys_hybridBm25Norm.mp
          (List.mem_map.mpr ⟨(x, v), lookup_mem hd, rfl⟩)) hnb
    rw [hnone, Option.getD_none]
  · intro x hx hns
    rw [dkeys_hybridCombined] at hx
    rw [dget_hybridCombined, if_pos hx]
    have hnone : dget semN x = none := by
      rcases hd : dget semN x with _ | v
      · rfl
      · exact absurd (mem_dkeys_hybridSemNorm.mp
          (List.mem_map.mpr ⟨(x, v), lookup_mem hd, rfl⟩)) hns
    rw [hnone, Option.getD_none]
  · intro r hr
    have hmain := hybridBuild_display (Eq.refl (sem.map display)) r hr
    constructor
    · intro hmem
      rcases hmain with ⟨s, hf, hdisp⟩ | ⟨hnone, _⟩
      · simp only [display, Prod.mk.injEq] at hdisp
        obtain ⟨_, h2, h3, h4, h5⟩ := hdisp
        exact ⟨s, hf, h2, h3, h4, h5⟩
      · rw [List.find?_eq_none] at hnone
        obtain ⟨s, hs, hsid⟩ := List.mem_map.mp hmem
        exact absurd hsid (by simpa using hnone s hs)
    · intro hmem
      rcases hmain with ⟨s, hf, _⟩ | ⟨_, b, hfb, h1, h2, h3, h4⟩
      · have hs := List.mem_of_find?_eq_some hf
        have hsid : s.id = r.id := by simpa using List.find?_some hf
        exact absurd (List.mem_map.mpr ⟨s, hs, hsid⟩) hmem
      · exact ⟨b, hfb, h1, h2, h3, h4⟩

/-! ## Claim C10: in-place mutation of semantic results -/

theorem nodup_map_inj {l : List SemResult} (h : (l.map SemResult.id).Nodup) :
    ∀ x ∈ l, ∀ y ∈ l, x.id = y.id → x = y := by
  induction l with
  | nil => intro x hx; cases hx
  | cons a t ih =>
    rw [List.map_cons, List.nodup_cons] at h
    obtain ⟨hna, hnt⟩ := h
    intro x hx y hy hxy
    rcases List.mem_cons.mp hx with rfl | hxt <;> rcases List.mem_cons.mp hy with rfl | hyt
    · rfl
    · exact absurd (List.mem_map.mpr ⟨y, hyt, hxy.symm⟩) hna
    · exact absurd (List.mem_map.mpr ⟨x, hxt, hxy⟩) hna
    · exact ih hnt x hxt y hyt hxy

theorem find?_unique_pos {sem : List SemResult} (hn : (sem.map SemResult.id).Nodup)
    {m : String} {sr : SemResult} (hf : sem.find? (fun x => x.id = m) = some sr)
    {i : Nat} (hi : i < sem.length) (hid : (sem.getD i semDefault).id = m) :
    sem.getD i semDefault = sr := by
  have hsr : sr ∈ sem := List.mem_of_find?_eq_some hf
  have hsrid : sr.id = m := by simpa using List.find?_some hf
  exact nodup_map_inj hn _ (getD_mem hi _) sr hsr (by rw [hid, hsrid])

theorem updateFirst_length {l : List SemResult} {m : String} {f : SemResult → SemResult} :
    (updateFirst l m f).length = l.length := by
  induction l with
  | nil => rfl
  | cons r rs ih =>
    rw [updateFirst]
    by_cases h : r.id = m
    · rw [if_pos h, List.length_cons, List.length_cons]
    · rw [if_neg h, List.length_cons, List.length_cons, ih]

theorem updateFirst_getD_of_ne {l : List SemResult} {m : String}
    {f : SemResult → SemResult} :
    ∀ {i : Nat}, (l.getD i semDefault).id ≠ m →
      (updateFirst l m f).getD i semDefault = l.getD i semDefault := by
  induction l with
  | nil => intro i _; rfl
  | cons r rs ih =>
    intro i hne
    rw [updateFirst]
    by_cases h : r.id = m
    · rw [if_pos h]
      cases i with
      | zero => exact absurd (by rw [List.getD_cons_zero] at hne ⊢; exact h) hne
      | succ j => rw [List.getD_cons_succ, List.getD_cons_succ]
    · rw [if_neg h]
      cases i with
      | zero => rw [List.getD_cons_zero, List.getD_cons_zero]
      | succ j =>
        rw [List.getD_cons_succ, List.getD_cons_succ]
        exact ih (by rw [List.getD_cons_succ] at hne; exact hne)

theorem updateFirst_getD_of_eq {l : List SemResult} {m : String}
    {f : SemResult → SemResult} :
    ∀ {i : Nat}, (l.map SemResult.id).Nodup → i < l.length →
      (l.getD i semDefault).id = m →
      (updateFirst l m f).getD i semDefault = f (l.getD i semDefault) := by
  induction l with
  | nil => intro i _ hi; cases hi
  | cons r rs ih =>
    intro i hn hi hid
    rw [List.map_cons, List.nodup_cons] at hn
    obtain ⟨hna, hnt⟩ := hn
    rw [updateFirst]
    by_cases h : r.id = m
    · rw [if_pos h]
      cases i with
      | zero => rw [List.getD_cons_zero, List.getD_cons_zero]
      | succ j =>
        rw [List.getD_cons_succ] at hid
        have hj : j < rs.length := by
          rw [List.length_cons] at hi; omega
        have : r.id ∈ rs.map SemResult.id :=
          List.mem_map.mpr ⟨rs.getD j semDefault, getD_mem hj _, by rw [hid, h]⟩
        exact absurd this hna
    · rw [if_neg h]
      cases i with
      | zero =>
        rw [List.getD_cons_zero] at hid
        exact absurd hid h
      | succ j =>
        rw [List.getD_cons_succ, List.getD_cons_succ]
        rw [List.getD_cons_succ] at hid
        exact ih hnt (by rw [List.length_cons] at hi; omega) hid

theorem map_id_of_map_display {l l' : List SemResult}
    (h : l.map display = l'.map display) :
    l.map SemResult.id = l'.map SemResult.id := by
  have h2 := congrArg
    (List.map (fun p : String × String × String × String × Option ℚ => p.1)) h
  rw [List.map_map, List.map_map] at h2
  exact h2

theorem updateFirst_map_id {l : List SemResult} {m : String}
    {c bN sN : List (String × ℚ)} :
    (updateFirst l m (writeScores c bN sN m)).map SemResult.id = l.map SemResult.id :=
  map_id_of_map_display updateFirst_display

theorem hybridSortedIds_nodup {bmN semN : List (String × ℚ)} {w : ℚ} {k : Nat} :
    (hybridSortedIds (hybridCombined bmN semN w) k).Nodup := by
  rw [hybridSortedIds]
  refine List.Sublist.nodup (List.take_sublist _ _) ?_
  refine (List.perm_insertionSort _ _).symm.nodup ?_
  rw [dkeys_hybridCombined]
  exact List.nodup_dedup _

theorem hybridBuild_state {c bN sN : List (String × ℚ)} {bm : List BmResult} :
    ∀ {ids : List String} {sem : List SemResult},
      (sem.map SemResult.id).Nodup → ids.Nodup →
      ((hybridBuild c bN sN bm ids sem).2.length = sem.length ∧
       ∀ i, i < sem.length →
         (if (sem.getD i semDefault).id ∈ ids then
            (hybridBuild c bN sN bm ids sem).2.getD i semDefault =
              writeScores c bN sN (sem.getD i semDefault).id (sem.getD i semDefault) ∧
            (hybridBuild c bN sN bm ids sem).2.getD i semDefault
              ∈ (hybridBuild c bN sN bm ids sem).1
          else (hybridBuild c bN sN bm ids sem).2.getD i semDefault
              = sem.getD i semDefault)) := by
  intro ids
  induction ids with
  | nil =>
    intro sem _ _
    refine ⟨rfl, fun i _ => ?_⟩
    rw [if_neg (List.not_mem_nil _)]
    rfl
  | cons m rest ih =>
    intro sem hsem hids
    rw [List.nodup_cons] at hids
    obtain ⟨hmr, hrest⟩ := hids
    rcases h1 : sem.find? (fun x => x.id = m) with _ | sr
    · -- no dense counterpart for m: the semantic list is untouched at this step
      have hnotm : ∀ i, i < sem.length → (sem.getD i semDefault).id ≠ m := by
        intro i hi he
        have hno := (List.find?_eq_none.mp h1) (sem.getD i semDefault) (getD_mem hi semDefault)
        exact hno (decide_eq_true he)
      rcases h2 : bm.find? (fun x => x.id = m) with _ | b
      · have hred : hybridBuild c bN sN bm (m :: rest) sem =
            hybridBuild c bN sN bm rest sem := by
          rw [hybridBuild, h1, h2]
        rw [hred]
        obtain ⟨hlen, hidx⟩ := ih hsem hrest
        refine ⟨hlen, fun i hi => ?_⟩
        have hne := hnotm i hi
        have hmem : (sem.getD i semDefault).id ∈ m :: rest ↔
            (sem.getD i semDefault).id ∈ rest := by
          rw [List.mem_cons]
          exact ⟨fun h => h.resolve_left hne, Or.inr⟩
        have hthis := hidx i hi
        by_cases hin : (sem.getD i semDefault).id ∈ rest
        · rw [if_pos (hmem.mpr hin)]
          rw [if_pos hin] at hthis
          exact hthis
        · rw [if_neg (fun h => hin (hmem.mp h))]
          rw [if_neg hin] at hthis
          exact hthis
      · have hred2 : (hybridBuild c bN sN bm (m :: rest) sem).2 =
            (hybridBuild c bN sN bm rest sem).2 := by
          rw [hybridBuild, h1, h2]
        have hred1 : (hybridBuild c bN sN bm (m :: rest) sem).1 =
            writeScores c bN sN m (fallbackFromBm b) ::
              (hybridBuild c bN sN bm rest sem).1 := by
          rw [hybridBuild, h1, h2]
        rw [hred2, hred1]
        obtain ⟨hlen, hidx⟩ := ih hsem hrest
        refine ⟨hlen, fun i hi => ?_⟩
        have hne := hnotm i hi
        have hmem : (sem.getD i semDefault).id ∈ m :: rest ↔
            (sem.getD i semDefault).id ∈ rest := by
          rw [List.mem_cons]
          exact ⟨fun h => h.resolve_left hne, Or.inr⟩
        have hthis := hidx i hi
        by_cases hin : (sem.getD i semDefault).id ∈ rest
        · rw [if_pos (hmem.mpr hin)]
          rw [if_pos hin] at hthis
          exact ⟨hthis.1, List.mem_cons_of_mem _ hthis.2⟩
        · rw [if_neg (fun h => hin (hmem.mp h))]
          rw [if_neg hin] at hthis
          exact hthis
    · -- the first dense dict with id m is mutated in place
      have hsrid : sr.id = m := by simpa using List.find?_some h1
      have hred2 : (hybridBuild c bN sN bm (m :: rest) sem).2 =
          (hybridBuild c bN sN bm rest (updateFirst sem m (writeScores c bN sN m))).2 := by
        rw [hybridBuild, h1]
      have hred1 : (hybridBuild c bN sN bm (m :: rest) sem).1 =
          writeScores c bN sN m sr ::
            (hybridBuild c bN sN bm rest (updateFirst sem m (writeScores c bN sN m))).1 := by
        rw [hybridBuild, h1]
      rw [hred2, hred1]
      have hsem' : ((updateFirst sem m (writeScores c bN sN m)).map SemResult.id).Nodup := by
        rw [updateFirst_map_id]
        exact hsem
      obtain ⟨hlen, hidx⟩ := ih hsem' hrest
      rw [updateFirst_length] at hlen
      refine ⟨hlen, fun i hi => ?_⟩
      by_cases hm : (sem.getD i semDefault).id = m
      · -- position i is the unique match
        have hsr : sem.getD i semDefault = sr := find?_unique_pos hsem h1 hi hm
        have hupd : (updateFirst sem m (writeScores c bN sN m)).getD i semDefault =
            writeScores c bN sN m (sem.getD i semDefault) :=
          updateFirst_getD_of_eq hsem hi hm
        have hupdid : ((updateFirst sem m (writeScores c bN sN m)).getD i
            semDefault).id = (sem.getD i semDefault).id := by
          rw [hupd]
          rfl
        have hi' : i < (updateFirst sem m (writeScores c bN sN m)).length := by
          rw [updateFirst_length]
          exact hi
        have hthis := hidx i hi'
        rw [if_neg (by rw [hupdid, hm]; exact hmr)] at hthis
        rw [if_pos (by rw [hm]; exact List.mem_cons_self _ _)]
        rw [hthis, hupd, hm, hsr]
        exact ⟨rfl, List.mem_cons_self _ _⟩
      · -- other positions are untouched by this step
        have hupd : (updateFirst sem m (writeScores c bN sN m)).getD i semDefault =
            sem.getD i semDefault := updateFirst_getD_of_ne hm
        have hi' : i < (updateFirst sem m (writeScores c bN sN m)).length := by
          rw [updateFirst_length]
          exact hi
        have hthis := hidx i hi'
        rw [hupd] at hthis
        have hmem : (sem.getD i semDefault).id ∈ m :: rest ↔
            (sem.getD i semDefault).id ∈ rest := by
          rw [List.mem_cons]
          exact ⟨fun h => h.resolve_left hm, Or.inr⟩
        by_cases hin : (sem.getD i semDefault).id ∈ rest
        · rw [if_pos (hmem.mpr hin)]
          rw [if_pos hin] at hthis
          exact ⟨hthis.1, List.mem_cons_of_mem _ hthis.2⟩
        · rw [if_neg (fun h => hin (hmem.mp h))]
          rw [if_neg hin] at hthis
          exact hthis

/-- C10: `hybrid_search` mutates its caller-supplied `semantic_results`: each
entry whose id survives fusion (it is its own dense counterpart) has the
three score keys written into it in place and the returned list contains that
very entry, while entries whose id does not survive are left unchanged. The
hypothesis that the semantic ids are pairwise distinct reflects the unique
ids of the dense index. -/
theorem hybrid_mutation (st : HybridRetriever) (query : String)
    (sem : List SemResult) (w : ℚ) (top_k : Nat)
    (hn : (sem.map SemResult.id).Nodup) :
    let bm := searchBm25 st query 100 true
    let bmN := hybridBm25Norm bm
    let semN := hybridSemNorm sem
    let combined := hybridCombined bmN semN w
    let ids := hybridSortedIds combined top_k
    let p := hybridSearch st query sem w top_k
    p.2.length = sem.length ∧
    ∀ i, i < sem.length →
      (if (sem.getD i semDefault).id ∈ ids then
         p.2.getD i semDefault =
           writeScores combined bmN semN (sem.getD i semDefault).id
             (sem.getD i semDefault) ∧
         p.2.getD i semDefault ∈ p.1
       else p.2.getD i semDefault = sem.getD i semDefault) := by
  intro bm bmN semN combined ids p
  exact hybridBuild_state hn hybridSortedIds_nodup

theorem hybrid_mutation_witness :
    (hybridSearch wRetriever "trip" [wSem] (3/5) 25).2.length = 1 :=
  (hybrid_mutation wRetriever "trip" [wSem] (3/5) 25 (by decide)).1

end SimpleRAG
